import Mathlib

/-!
Verification of the cancellable-actions core (`src/actions.js`) of the
vuex-cancellable-actions repository.

The JavaScript source is shallowly embedded as follows.

* `JsError` models a JavaScript `Error` value: `name` is the `Error.name`
  string field; `cancelClassInstance` records whether the value was built by
  `new ActionCancelledError(...)` (class identity, i.e. `instanceof`);
  `code` stands for any further payload distinguishing user errors.
* `Registry` models the module-level `cancelledActions` JS `Set` from
  `actionCancellerFactory`, with action identifiers embedded as `Nat`.
  `Registry.cancelAction`, `Registry.isActionCancelled` and
  `Registry.cleanAction` are the three methods of the returned object.
* `wrappedCommit` / `wrappedDispatch` embed the two intercepting closures
  installed by `actionWrapper` (actions.js lines 46-58): check the registry
  for the captured `rootActionId`, throw `ActionCancelledError` when
  cancelled, otherwise forward with the same arguments and return the
  forwarded call's value.
* `actionWrapperEnter` embeds lines 41-43 of `actionWrapper` (root-ness
  detection and identifier attachment); `actionWrapperFinish` embeds
  lines 63-67 (`await ret; if (isRootAction) cleanAction; return ret`):
  in the source there is no try/finally, so when `await ret` rejects the
  clean-up line is never reached — the embedding reflects exactly that.
* `takeLatestCatch` embeds the try/catch of `takeLatestActionWrapper`
  (lines 114-119): a rejection is swallowed exactly when the error's
  `name` field equals the string "ActionCancelledError".
* `uniqueId` embeds the identifier generator (lines 7-9); the
  `Math.random().toString(36).substr(2, 16)` draw is passed in explicitly
  as the `randomPart` argument, since the embedding is deterministic.

On top of these a small-step trace model (`Sys`, `Ev`, `stepSys`, `runSys`)
describes the whole system under the single-threaded cooperative scheduler
of spec §5: an `Inv` is one root invocation tree of a wrapped action, its
intercepted mutation/dispatch calls flattened into the list `pending`
(every intercepted call in a tree checks the same root identifier, which
the host threads through nested contexts per spec §6); scheduler events
interleave external cancellations, new dispatches and resumptions of the
asynchronous bodies. Host calls that are actually forwarded are logged in
`hostCalls`, each entry ghost-tagged with the forwarding invocation's root
identifier and with whether that invocation was takeLatest-wrapped.
-/

namespace VuexCancellableActions

/-- A JavaScript error value. `name` is the `Error.name` field,
`cancelClassInstance` is class identity (`instanceof ActionCancelledError`),
`code` stands for any other distinguishing payload. -/
structure JsError where
  name : String
  cancelClassInstance : Bool
  code : Nat
deriving DecidableEq, Repr

/-- The error constructed by `new ActionCancelledError(...)` (actions.js
lines 15-21): the constructor sets `this.name = 'ActionCancelledError'`. -/
def actionCancelledError : JsError :=
  { name := "ActionCancelledError", cancelClassInstance := true, code := 0 }

/-- The cancellation registry: the `cancelledActions` JS `Set` captured by
`actionCancellerFactory` (actions.js lines 23-36). -/
structure Registry where
  cancelled : List Nat
deriving DecidableEq, Repr

/-- `cancelAction(actionId) { cancelledActions.add(actionId) }` —
JS `Set.add` inserts the element when absent. -/
def Registry.cancelAction (r : Registry) (actionId : Nat) : Registry :=
  if actionId ∈ r.cancelled then r else ⟨actionId :: r.cancelled⟩

/-- `isActionCancelled(actionId) { return cancelledActions.has(actionId) }`. -/
def Registry.isActionCancelled (r : Registry) (actionId : Nat) : Bool :=
  decide (actionId ∈ r.cancelled)

/-- `cleanAction(actionId) { cancelledActions.delete(actionId) }`. -/
def Registry.cleanAction (r : Registry) (actionId : Nat) : Registry :=
  ⟨r.cancelled.filter (fun x => decide (x ≠ actionId))⟩

/-- The registry at process start: the empty set. -/
def Registry.empty : Registry := ⟨[]⟩

/-- The body of `isActionCancelled` only reads the set, so running the
method returns the answer together with an unchanged registry state. -/
def Registry.isActionCancelledRun (r : Registry) (actionId : Nat) :
    Bool × Registry :=
  (r.isActionCancelled actionId, r)

/-- The intercepting `wrappedCommit` closure (actions.js lines 46-51):
check the captured `rootActionId` against the registry; throw
`ActionCancelledError` if cancelled, else `return commit(...args)`. -/
def wrappedCommit {α β : Type} (rootActionId : Nat) (r : Registry)
    (commit : α → β) (args : α) : Except JsError β :=
  if r.isActionCancelled rootActionId then Except.error actionCancelledError
  else Except.ok (commit args)

/-- The intercepting `wrappedDispatch` closure (actions.js lines 53-58),
identical in shape to `wrappedCommit`. -/
def wrappedDispatch {α β : Type} (rootActionId : Nat) (r : Registry)
    (dispatch : α → β) (args : α) : Except JsError β :=
  if r.isActionCancelled rootActionId then Except.error actionCancelledError
  else Except.ok (dispatch args)

/-- The execution context as far as identifier threading is concerned:
`rootActionId` is absent (`none`) on a fresh host context. -/
structure JsContext where
  rootActionId : Option Nat
deriving DecidableEq, Repr

/-- Lines 41-43 of `actionWrapper`:
`const isRootAction = !context.rootActionId;`
`context.rootActionId = context.rootActionId || uniqueId('action-');`
returning the mutated context, the root flag and the identifier in use. -/
def actionWrapperEnter (ctx : JsContext) (freshId : Nat) :
    JsContext × Bool × Nat :=
  let isRootAction := ctx.rootActionId.isNone
  let newId := ctx.rootActionId.getD freshId
  ({ ctx with rootActionId := some newId }, isRootAction, newId)

/-- Lines 63-67 of `actionWrapper`: `await ret;
if (isRootAction) { actionCanceller.cleanAction(rootActionId) } return ret`.
When the awaited promise rejects, the rejection propagates at `await ret`
and the clean-up statement is never reached (there is no try/finally),
so in the error case the registry is returned untouched. -/
def actionWrapperFinish (isRootAction : Bool) (rootActionId : Nat)
    (r : Registry) (outcome : Except JsError (Option Nat)) :
    Registry × Except JsError (Option Nat) :=
  match outcome with
  | Except.ok v => (if isRootAction then r.cleanAction rootActionId else r, Except.ok v)
  | Except.error e => (r, Except.error e)

/-- The try/catch of `takeLatestActionWrapper` (actions.js lines 114-119):
`try { return await action(...) } catch (e) { if (e.name !==
'ActionCancelledError') throw e }` — a rejection whose `name` field equals
"ActionCancelledError" is swallowed and the call resolves with no value;
every other rejection is rethrown unchanged. -/
def takeLatestCatch (res : Except JsError (Option Nat)) :
    Except JsError (Option Nat) :=
  match res with
  | Except.ok v => Except.ok v
  | Except.error e =>
      if e.name = "ActionCancelledError" then Except.ok none
      else Except.error e

/-- `uniqueId` (actions.js lines 7-9): the pre-fix string concatenated with
the base-36 fragment drawn from `Math.random()`, supplied here explicitly
as `randomPart`. -/
def uniqueId (pre : String) (randomPart : String) : String :=
  pre ++ randomPart

/-- One intercepted call that an action body (including its nested
dispatches, which share the root identifier) will attempt, or a point where
the body itself throws. -/
inductive Call where
  | commitCall (mutation : Nat)
  | dispatchCall (payload : Nat)
  | throwCall (e : JsError)
deriving DecidableEq, Repr

instance instDecEqExcept {ε α : Type} [DecidableEq ε] [DecidableEq α] :
    DecidableEq (Except ε α) := fun x y =>
  match x, y with
  | Except.ok a, Except.ok b =>
      if h : a = b then Decidable.isTrue (by simp [h])
      else Decidable.isFalse (by simp [h])
  | Except.ok _, Except.error _ => Decidable.isFalse (by simp)
  | Except.error _, Except.ok _ => Decidable.isFalse (by simp)
  | Except.error e, Except.error f =>
      if h : e = f then Decidable.isTrue (by simp [h])
      else Decidable.isFalse (by simp [h])

/-- One in-flight root invocation tree of a wrapped action.
`rootActionId` is the identifier generated at its root; `tl` records
whether the action at this call site is `takeLatest`-wrapped (inside the
`makeCancellable` wrapper, as in the repository's tests); `pending` is the
flattened list of intercepted calls the tree still intends to attempt;
`retVal` is the value the body returns if it runs to completion; `result`
is `none` while in flight, and otherwise the caller-visible settlement of
the dispatch promise (`Except.ok none` for a resolution with no value). -/
structure Inv where
  rootActionId : Nat
  tl : Bool
  pending : List Call
  retVal : Nat
  result : Option (Except JsError (Option Nat))
deriving DecidableEq, Repr

/-- Global system state: the shared registry, the `previousCalls` stack of
the (single modelled) `takeLatest` call site, the invocations so far, and
the log of calls actually forwarded to the host store. Each `hostCalls`
entry is ghost-tagged with the forwarding invocation's root identifier and
its `tl` flag. -/
structure Sys where
  registry : Registry
  previousCalls : List Nat
  invs : List Inv
  hostCalls : List (Nat × Bool × Call)
deriving DecidableEq, Repr

/-- Scheduler/environment events: an external `cancelAction(id)`; the
dispatch of a new root invocation of the `takeLatest`-wrapped action (the
generated fresh identifier is the event's parameter); the dispatch of a
new root invocation of a plain `makeCancellable` action; and the
resumption of the `k`-th invocation's body up to its next intercepted
call (or completion). -/
inductive Ev where
  | cancelEv (actionId : Nat)
  | dispatchTL (actionId : Nat) (body : List Call) (retVal : Nat)
  | dispatchPlain (actionId : Nat) (body : List Call) (retVal : Nat)
  | stepEv (k : Nat)
deriving DecidableEq, Repr

/-- The drain loop of `takeLatest` (actions.js lines 110-112):
`while (previousCalls.length > 0) { cancelAction(previousCalls.pop()) }` —
pop from the end of the stack, cancelling each identifier. -/
def drainCancel (r : Registry) (stack : List Nat) : Registry :=
  stack.reverse.foldl Registry.cancelAction r

/-- Settlement of invocation `k` whose body finished with `outcome`
(a return value or a thrown error): the outcome passes through the
`takeLatest` try/catch when the invocation is `takeLatest`-wrapped, and
then through the tail of the root `actionWrapper` (clean-up on successful
await, none on rejection). -/
def finishInv (s : Sys) (k : Nat) (inv : Inv)
    (outcome : Except JsError (Option Nat)) : Sys :=
  let afterTL := if inv.tl then takeLatestCatch outcome else outcome
  let fin := actionWrapperFinish true inv.rootActionId s.registry afterTL
  { s with registry := fin.1,
           invs := s.invs.set k { inv with pending := [], result := some fin.2 } }

/-- One scheduler step. A `dispatchTL` performs synchronously, at dispatch
time, what `takeLatestActionWrapper` does before invoking the underlying
action: drain `previousCalls` cancelling every recorded identifier, then
record the new root identifier as the sole entry. A `stepEv` resumes a
body: with nothing pending the body completes with its return value; a
pending throw raises that error; a pending commit/dispatch goes through
the interception of `wrappedCommit`/`wrappedDispatch` — it is forwarded to
the host when the root identifier is not cancelled, and otherwise raises
`ActionCancelledError`, aborting the body. -/
def stepSys (s : Sys) (e : Ev) : Sys :=
  match e with
  | Ev.cancelEv actionId => { s with registry := s.registry.cancelAction actionId }
  | Ev.dispatchTL actionId body retVal =>
      { s with registry := drainCancel s.registry s.previousCalls,
               previousCalls := [actionId],
               invs := s.invs ++ [{ rootActionId := actionId, tl := true,
                                    pending := body, retVal := retVal,
                                    result := none }] }
  | Ev.dispatchPlain actionId body retVal =>
      { s with invs := s.invs ++ [{ rootActionId := actionId, tl := false,
                                    pending := body, retVal := retVal,
                                    result := none }] }
  | Ev.stepEv k =>
      match s.invs[k]? with
      | none => s
      | some inv =>
        if inv.result.isSome then s
        else
          match inv.pending with
          | [] => finishInv s k inv (Except.ok (some inv.retVal))
          | Call.throwCall e :: _ => finishInv s k inv (Except.error e)
          | c :: rest =>
            if s.registry.isActionCancelled inv.rootActionId then
              finishInv s k inv (Except.error actionCancelledError)
            else
              { s with hostCalls := s.hostCalls ++ [(inv.rootActionId, inv.tl, c)],
                       invs := s.invs.set k { inv with pending := rest } }

/-- The system at process start: empty registry, no pending identifiers,
no invocations, nothing forwarded. -/
def initSys : Sys :=
  { registry := Registry.empty, previousCalls := [], invs := [], hostCalls := [] }

/-- Run a whole event trace from process start. -/
def runSys (evs : List Ev) : Sys :=
  evs.foldl stepSys initSys

/-- The root identifiers handed out by the dispatch events of a trace,
in dispatch order. -/
def dispatchedIds (evs : List Ev) : List Nat :=
  evs.filterMap (fun e =>
    match e with
    | Ev.dispatchTL actionId _ _ => some actionId
    | Ev.dispatchPlain actionId _ _ => some actionId
    | _ => none)

/-- Whether the event dispatches a new invocation with identifier `actionId`. -/
def isDispatchOf (e : Ev) (actionId : Nat) : Bool :=
  match e with
  | Ev.dispatchTL i _ _ => i == actionId
  | Ev.dispatchPlain i _ _ => i == actionId
  | _ => false

/-- Whether the event is a dispatch of the `takeLatest`-wrapped action. -/
def isDispatchTLEv (e : Ev) : Bool :=
  match e with
  | Ev.dispatchTL _ _ _ => true
  | _ => false

/-- The root identifiers of the invocations present in a state, in
dispatch order. -/
def idsOf (s : Sys) : List Nat :=
  s.invs.map (fun i => i.rootActionId)

/-- Induction invariant for suppression (claim C3): the identifier occurs
at most once among the invocations, and while any invocation bearing it is
still in flight, the identifier is in the registry. -/
def SuppressionInv (actionId : Nat) (s : Sys) : Prop :=
  (idsOf s).count actionId ≤ 1 ∧
  ∀ inv ∈ s.invs, inv.rootActionId = actionId → inv.result = none →
    s.registry.isActionCancelled actionId = true

/-- Induction invariant for take-latest supersession (claim C4): every
in-flight `takeLatest`-wrapped invocation other than the latest one
(`actionId`) has its root identifier in the registry. -/
def LatestInv (actionId : Nat) (s : Sys) : Prop :=
  ∀ inv ∈ s.invs, inv.tl = true → inv.rootActionId ≠ actionId →
    inv.result = none → s.registry.isActionCancelled inv.rootActionId = true

/-- Auxiliary invariant: every in-flight `takeLatest`-wrapped invocation is
either still recorded on the pending stack or already cancelled — this is
what makes the drain at the next dispatch cancel all of them. -/
def PendingCoverInv (s : Sys) : Prop :=
  ∀ inv ∈ s.invs, inv.tl = true → inv.result = none →
    inv.rootActionId ∈ s.previousCalls ∨
      s.registry.isActionCancelled inv.rootActionId = true

/-- The identifier of the most recently dispatched `takeLatest`-wrapped
invocation of a trace, if any. -/
def lastTLId (evs : List Ev) : Option Nat :=
  (evs.filterMap (fun e =>
    match e with
    | Ev.dispatchTL i _ _ => some i
    | _ => none)).getLast?

/-- Caller-visible discipline of a `takeLatest`-wrapped invocation: its
dispatch promise never rejects with an error named "ActionCancelledError"
(any such failure is absorbed into a valueless resolution). -/
def TlNoCancelError (inv : Inv) : Prop :=
  inv.tl = true → ∀ e : JsError, e.name = "ActionCancelledError" →
    inv.result ≠ some (Except.error e)

/-! ## Registry lemmas -/

theorem isActionCancelled_cancelAction (r : Registry) (j x : Nat) :
    (r.cancelAction j).isActionCancelled x =
      (decide (x = j) || r.isActionCancelled x) := by
  unfold Registry.cancelAction Registry.isActionCancelled
  split
  · rename_i h
    by_cases hx : x = j
    · subst hx
      simp [h]
    · simp [hx]
  · simp [List.mem_cons]

theorem isActionCancelled_cancelAction_self (r : Registry) (j : Nat) :
    (r.cancelAction j).isActionCancelled j = true := by
  simp [isActionCancelled_cancelAction]

theorem isActionCancelled_cancelAction_of (r : Registry) (j x : Nat)
    (h : r.isActionCancelled x = true) :
    (r.cancelAction j).isActionCancelled x = true := by
  simp [isActionCancelled_cancelAction, h]

theorem isActionCancelled_cancelAction_ne (r : Registry) (j x : Nat)
    (hx : x ≠ j) :
    (r.cancelAction j).isActionCancelled x = r.isActionCancelled x := by
  simp [isActionCancelled_cancelAction, hx]

theorem cancelAction_idem (r : Registry) (j : Nat) :
    (r.cancelAction j).cancelAction j = r.cancelAction j := by
  unfold Registry.cancelAction
  by_cases h : j ∈ r.cancelled
  · simp [h]
  · simp [h, List.mem_cons]

theorem isActionCancelled_cleanAction (r : Registry) (j x : Nat) :
    (r.cleanAction j).isActionCancelled x =
      (decide (x ≠ j) && r.isActionCancelled x) := by
  unfold Registry.cleanAction Registry.isActionCancelled
  by_cases hx : x = j
  · subst hx
    simp [List.mem_filter]
  · simp [List.mem_filter, hx]

theorem isActionCancelled_cleanAction_self (r : Registry) (j : Nat) :
    (r.cleanAction j).isActionCancelled j = false := by
  simp [isActionCancelled_cleanAction]

theorem isActionCancelled_cleanAction_ne (r : Registry) (j x : Nat)
    (hx : x ≠ j) :
    (r.cleanAction j).isActionCancelled x = r.isActionCancelled x := by
  simp [isActionCancelled_cleanAction, hx]

theorem cleanAction_absent (r : Registry) (j : Nat)
    (h : r.isActionCancelled j = false) :
    r.cleanAction j = r := by
  cases r with
  | mk l =>
    unfold Registry.isActionCancelled at h
    simp at h
    unfold Registry.cleanAction
    congr 1
    apply List.filter_eq_self.mpr
    intro a ha
    simp
    intro heq
    subst heq
    exact h ha

theorem foldl_cancelAction_of (l : List Nat) (r : Registry) (x : Nat)
    (h : r.isActionCancelled x = true) :
    (l.foldl Registry.cancelAction r).isActionCancelled x = true := by
  induction l generalizing r with
  | nil => exact h
  | cons a l ih =>
    exact ih (r.cancelAction a) (isActionCancelled_cancelAction_of r a x h)

theorem foldl_cancelAction_mem (l : List Nat) (r : Registry) (x : Nat)
    (h : x ∈ l) :
    (l.foldl Registry.cancelAction r).isActionCancelled x = true := by
  induction l generalizing r with
  | nil => cases h
  | cons a l ih =>
    rcases List.mem_cons.mp h with h' | h'
    · subst h'
      exact foldl_cancelAction_of l (r.cancelAction x) x
        (isActionCancelled_cancelAction_self r x)
    · exact ih (r.cancelAction a) h'

theorem drainCancel_mem (r : Registry) (stack : List Nat) (x : Nat)
    (h : x ∈ stack) :
    (drainCancel r stack).isActionCancelled x = true :=
  foldl_cancelAction_mem stack.reverse r x (List.mem_reverse.mpr h)

theorem drainCancel_of (r : Registry) (stack : List Nat) (x : Nat)
    (h : r.isActionCancelled x = true) :
    (drainCancel r stack).isActionCancelled x = true :=
  foldl_cancelAction_of stack.reverse r x h

/-! ## Local claims: C1, C2, C6, C7, C8, C9 -/

/-- C1 counterexample. The claim states that a root invocation completing
"whether the user action body resolves successfully or fails with any
error, including CancelledError" leaves its identifier absent from the
registry. On the code, when the awaited body rejects (here with the
`ActionCancelledError` of a directly cancelled action, as in the
repository's own cancellation test), `await ret` rethrows before the
`cleanAction` line, so a cancelled root identifier (5 here) is still in
the registry after the invocation completes by failure. -/
theorem C1_counterexample :
    (actionWrapperFinish true 5 (Registry.cancelAction Registry.empty 5)
        (Except.error actionCancelledError)).1.isActionCancelled 5 = true := rfl

/-- C1 amended: the root `actionWrapper` removes its identifier from the
registry exactly when the awaited invocation resolves successfully (which,
under `takeLatest`, includes absorbed cancellations); when the awaited
invocation rejects — with `ActionCancelledError` or any other error — the
clean-up line is skipped and the registry is left untouched, while the
outcome is propagated unchanged either way. -/
theorem C1_cleanup_on_success_only :
    ∀ (r : Registry) (rootActionId : Nat) (v : Option Nat) (e : JsError),
      ((actionWrapperFinish true rootActionId r
          (Except.ok v)).1.isActionCancelled rootActionId = false) ∧
      ((actionWrapperFinish true rootActionId r (Except.ok v)).2 =
          Except.ok v) ∧
      (actionWrapperFinish true rootActionId r (Except.error e) =
          (r, Except.error e)) := by
  intro r rootActionId v e
  refine ⟨?_, rfl, rfl⟩
  simp [actionWrapperFinish, isActionCancelled_cleanAction_self]

/-- C2 counterexample. The claim states that a failure that is not a
`CancelledError` (not produced by the `ActionCancelledError` class) always
propagates to the caller, never swallowed. The source only compares the
error's `name` string, so an unrelated error that merely carries the name
"ActionCancelledError" is absorbed by `takeLatest` as well. -/
theorem C2_counterexample :
    ¬ (∀ e : JsError, e.cancelClassInstance = false →
        takeLatestCatch (Except.error e) = Except.error e) := by
  intro h
  have h2 := h { name := "ActionCancelledError", cancelClassInstance := false,
                 code := 7 } rfl
  have h3 : takeLatestCatch (Except.error
      { name := "ActionCancelledError", cancelClassInstance := false,
        code := 7 }) = Except.ok none := rfl
  rw [h3] at h2
  exact Except.noConfusion h2

/-- C2 amended: the `takeLatest` wrapper absorbs a failure exactly when the
error's `name` field equals "ActionCancelledError" (so every genuine
`CancelledError` is absorbed and resolves with no value, but so is any
other error spoofing that name); a failure with any other name, and a
successful result, pass through unchanged. -/
theorem C2_absorb_by_name :
    ∀ (e : JsError) (v : Option Nat),
      (takeLatestCatch (Except.ok v) = Except.ok v) ∧
      (e.name = "ActionCancelledError" →
        takeLatestCatch (Except.error e) = Except.ok none) ∧
      (e.name ≠ "ActionCancelledError" →
        takeLatestCatch (Except.error e) = Except.error e) := by
  intro e v
  refine ⟨rfl, ?_, ?_⟩ <;> intro h <;> simp [takeLatestCatch, h]

/-- C2 witness: a genuine cancellation is absorbed into a valueless
resolution, and an ordinary user error propagates unchanged. -/
theorem C2_witness :
    takeLatestCatch (Except.error actionCancelledError) = Except.ok none ∧
    takeLatestCatch (Except.error (⟨"boom", false, 3⟩ : JsError)) =
      Except.error (⟨"boom", false, 3⟩ : JsError) :=
  ⟨(C2_absorb_by_name actionCancelledError none).2.1 (by decide),
   (C2_absorb_by_name (⟨"boom", false, 3⟩ : JsError) none).2.2 (by decide)⟩

/-- C6: each intercepting entry point fails with `CancelledError` exactly
when the captured root identifier is in the registry at the moment of the
call, and otherwise forwards to the original `commit`/`dispatch` with the
same arguments, returning that call's value unchanged. -/
theorem C6_intercept_iff :
    ∀ {α β : Type} (rootActionId : Nat) (r : Registry)
      (commit dispatch : α → β) (args : α),
      (wrappedCommit rootActionId r commit args =
          Except.error actionCancelledError ↔
        r.isActionCancelled rootActionId = true) ∧
      (wrappedDispatch rootActionId r dispatch args =
          Except.error actionCancelledError ↔
        r.isActionCancelled rootActionId = true) ∧
      (r.isActionCancelled rootActionId = false →
        wrappedCommit rootActionId r commit args = Except.ok (commit args) ∧
        wrappedDispatch rootActionId r dispatch args =
          Except.ok (dispatch args)) := by
  intro α β rootActionId r commit dispatch args
  by_cases h : r.isActionCancelled rootActionId = true
  · simp [wrappedCommit, wrappedDispatch, h]
  · simp at h
    simp [wrappedCommit, wrappedDispatch, h]

/-- C6 witness: on an uncancelled identifier the interception forwards and
returns the original call's value; after cancelling it, it raises. -/
theorem C6_witness :
    wrappedCommit 1 Registry.empty Nat.succ 4 = Except.ok 5 ∧
    wrappedDispatch 1 (Registry.cancelAction Registry.empty 1) Nat.succ 4 =
      Except.error actionCancelledError :=
  ⟨((C6_intercept_iff 1 Registry.empty Nat.succ Nat.succ 4).2.2 (by decide)).1,
   ((C6_intercept_iff 1 (Registry.cancelAction Registry.empty 1) Nat.succ
      Nat.succ 4).2.1).mpr (by decide)⟩

/-- C7: an invocation whose incoming context carries no identifier is the
root — a fresh identifier is generated and attached to the context; one
whose context already carries an identifier is nested — it reuses the
inherited identifier and the context is unchanged; and a non-root
invocation never touches the registry on completion (only the root
performs clean-up). -/
theorem C7_rootness_detection :
    ∀ (ctx : JsContext) (freshId inherited : Nat) (r : Registry)
      (out : Except JsError (Option Nat)),
      (ctx.rootActionId = none →
        actionWrapperEnter ctx freshId =
          ({ rootActionId := some freshId }, true, freshId)) ∧
      (ctx.rootActionId = some inherited →
        actionWrapperEnter ctx freshId = (ctx, false, inherited)) ∧
      (actionWrapperFinish false inherited r out = (r, out)) := by
  intro ctx freshId inherited r out
  refine ⟨?_, ?_, ?_⟩
  · intro h
    cases ctx with
    | mk ro =>
      cases ro with
      | none => rfl
      | some i => cases h
  · intro h
    cases ctx with
    | mk ro =>
      simp at h
      subst h
      rfl
  · cases out <;> rfl

/-- C7 witness: a fresh context is treated as root with the fresh
identifier attached; a context carrying identifier 9 is treated as nested
reusing 9; non-root completion leaves a registry untouched. -/
theorem C7_witness :
    actionWrapperEnter { rootActionId := none } 4 =
      ({ rootActionId := some 4 }, true, 4) ∧
    actionWrapperEnter { rootActionId := some 9 } 4 =
      ({ rootActionId := some 9 }, false, 9) ∧
    actionWrapperFinish false 9 (Registry.cancelAction Registry.empty 9)
        (Except.ok none) =
      (Registry.cancelAction Registry.empty 9, Except.ok none) :=
  ⟨(C7_rootness_detection { rootActionId := none } 4 9 Registry.empty
      (Except.ok none)).1 rfl,
   (C7_rootness_detection { rootActionId := some 9 } 4 9 Registry.empty
      (Except.ok none)).2.1 rfl,
   (C7_rootness_detection { rootActionId := some 9 } 4 9
      (Registry.cancelAction Registry.empty 9) (Except.ok none)).2.2⟩

/-- C8 counterexample. The claim states that any two sibling root
invocations receive distinct identifiers — that the generated identifier
is globally unique. The generator is `'action-' + Math.random()
.toString(36).substr(2, 16)`: nothing prevents two root invocations from
drawing the same random fragment, and with equal draws the two
identifiers coincide, so the code does not guarantee the claim. -/
theorem C8_counterexample :
    ¬ (∀ draw1 draw2 : String,
        uniqueId "action-" draw1 ≠ uniqueId "action-" draw2) := by
  intro h
  exact h "k3x7q" "k3x7q" rfl

/-- C8 amended: two sibling root invocations receive distinct identifiers
exactly when their `Math.random()` draws differ — uniqueness is only as
good as the random fragment, not a code-enforced guarantee. -/
theorem C8_distinct_draws_distinct_ids :
    ∀ (pre draw1 draw2 : String), draw1 ≠ draw2 →
      uniqueId pre draw1 ≠ uniqueId pre draw2 := by
  intro pre d1 d2 hne heq
  apply hne
  have hdata := congrArg String.data heq
  simp only [uniqueId, String.data_append] at hdata
  have := List.append_cancel_left hdata
  exact congrArg String.mk this

/-- C8 witness: distinct random fragments give distinct identifiers. -/
theorem C8_witness :
    uniqueId "action-" "so7567s1pcpojemi" ≠ uniqueId "action-" "aa11bb22cc33dd44" :=
  C8_distinct_draws_distinct_ids "action-" "so7567s1pcpojemi" "aa11bb22cc33dd44"
    (by decide)

/-- C9: registry discipline — `cancelAction` is idempotent, `cleanAction`
on an identifier absent from the registry is a no-op, running
`isActionCancelled` leaves the registry state unchanged, and cancelling
one identifier does not affect any other identifier's cancellation
state. -/
theorem C9_registry_algebra :
    ∀ (r : Registry) (actionId other : Nat),
      ((r.cancelAction actionId).cancelAction actionId =
        r.cancelAction actionId) ∧
      (r.isActionCancelled actionId = false → r.cleanAction actionId = r) ∧
      ((r.isActionCancelledRun actionId).2 = r) ∧
      (other ≠ actionId →
        (r.cancelAction actionId).isActionCancelled other =
          r.isActionCancelled other) := by
  intro r actionId other
  exact ⟨cancelAction_idem r actionId, cleanAction_absent r actionId, rfl,
    isActionCancelled_cancelAction_ne r actionId other⟩

/-- C9 witness: cleaning the unknown identifier 7 leaves a registry
holding 3 unchanged, and cancelling 7 does not change 3's state. -/
theorem C9_witness :
    Registry.cleanAction { cancelled := [3] } 7 = { cancelled := [3] } ∧
    (Registry.cancelAction { cancelled := [3] } 7).isActionCancelled 3 =
      Registry.isActionCancelled { cancelled := [3] } 3 :=
  ⟨(C9_registry_algebra { cancelled := [3] } 7 3).2.1 (by decide),
   (C9_registry_algebra { cancelled := [3] } 7 3).2.2.2 (by decide)⟩

/-! ## Trace-model helper lemmas -/

theorem finishInv_hostCalls (s : Sys) (k : Nat) (inv : Inv)
    (o : Except JsError (Option Nat)) :
    (finishInv s k inv o).hostCalls = s.hostCalls := rfl

theorem finishInv_previousCalls (s : Sys) (k : Nat) (inv : Inv)
    (o : Except JsError (Option Nat)) :
    (finishInv s k inv o).previousCalls = s.previousCalls := rfl

theorem finishInv_invs (s : Sys) (k : Nat) (inv : Inv)
    (o : Except JsError (Option Nat)) :
    (finishInv s k inv o).invs =
      s.invs.set k
        { inv with
          pending := [],
          result := some (actionWrapperFinish true inv.rootActionId s.registry
            (if inv.tl then takeLatestCatch o else o)).2 } := rfl

theorem finishInv_registry_cases (s : Sys) (k : Nat) (inv : Inv)
    (o : Except JsError (Option Nat)) :
    (finishInv s k inv o).registry = s.registry ∨
    (finishInv s k inv o).registry = s.registry.cleanAction inv.rootActionId := by
  unfold finishInv actionWrapperFinish
  cases h : (if inv.tl then takeLatestCatch o else o) with
  | ok v =>
    right
    simp [h]
  | error e =>
    left
    simp [h]

/-- Enumeration of what a scheduler resumption can do: nothing, settle the
invocation via `finishInv` with some body outcome, or forward one
intercepted call of an uncancelled invocation to the host. -/
theorem stepEv_shape (s : Sys) (k : Nat) :
    (stepSys s (Ev.stepEv k) = s) ∨
    (∃ inv o, s.invs[k]? = some inv ∧ inv.result = none ∧
      stepSys s (Ev.stepEv k) = finishInv s k inv o) ∨
    (∃ inv c rest, s.invs[k]? = some inv ∧ inv.result = none ∧
      inv.pending = c :: rest ∧ (∀ e, c ≠ Call.throwCall e) ∧
      s.registry.isActionCancelled inv.rootActionId = false ∧
      stepSys s (Ev.stepEv k) =
        { s with hostCalls := s.hostCalls ++ [(inv.rootActionId, inv.tl, c)],
                 invs := s.invs.set k { inv with pending := rest } }) := by
  rcases h : s.invs[k]? with _ | inv
  · left
    simp [stepSys, h]
  · rcases hr : inv.result with _ | res
    · rcases hp : inv.pending with _ | ⟨c, rest⟩
      · right; left
        exact ⟨inv, Except.ok (some inv.retVal), rfl, hr,
          by simp [stepSys, h, hr, hp]⟩
      · cases c with
        | throwCall e =>
          right; left
          exact ⟨inv, Except.error e, rfl, hr, by simp [stepSys, h, hr, hp]⟩
        | commitCall m =>
          by_cases hc : s.registry.isActionCancelled inv.rootActionId = true
          · right; left
            exact ⟨inv, Except.error actionCancelledError, rfl, hr,
              by simp [stepSys, h, hr, hp, hc]⟩
          · right; right
            refine ⟨inv, Call.commitCall m, rest, rfl, hr, hp,
              fun e => by simp, by simpa using hc, ?_⟩
            simp only [Bool.not_eq_true] at hc
            simp [stepSys, h, hr, hp, hc]
        | dispatchCall m =>
          by_cases hc : s.registry.isActionCancelled inv.rootActionId = true
          · right; left
            exact ⟨inv, Except.error actionCancelledError, rfl, hr,
              by simp [stepSys, h, hr, hp, hc]⟩
          · right; right
            refine ⟨inv, Call.dispatchCall m, rest, rfl, hr, hp,
              fun e => by simp, by simpa using hc, ?_⟩
            simp only [Bool.not_eq_true] at hc
            simp [stepSys, h, hr, hp, hc]
    · left
      simp [stepSys, h, hr]

theorem hostCalls_prefix_step (s : Sys) (e : Ev) :
    s.hostCalls <+: (stepSys s e).hostCalls := by
  cases e with
  | cancelEv actionId => exact List.prefix_rfl
  | dispatchTL actionId body retVal => exact List.prefix_rfl
  | dispatchPlain actionId body retVal => exact List.prefix_rfl
  | stepEv k =>
    rcases stepEv_shape s k with h | ⟨inv, o, _, _, h⟩ | ⟨inv, c, rest, _, _, _, _, _, h⟩
    · rw [h]
    · rw [h, finishInv_hostCalls]
    · rw [h]
      exact List.prefix_append _ _

theorem hostCalls_prefix_run (evs : List Ev) (s : Sys) :
    s.hostCalls <+: (evs.foldl stepSys s).hostCalls := by
  induction evs generalizing s with
  | nil => exact List.prefix_rfl
  | cons e evs ih =>
    exact (hostCalls_prefix_step s e).trans (ih (stepSys s e))

theorem getElem?_eq_of_count_le_one {l : List Nat} {x : Nat}
    (h : l.count x ≤ 1) {i j : Nat}
    (hi : l[i]? = some x) (hj : l[j]? = some x) : i = j := by
  induction l generalizing i j with
  | nil => simp at hi
  | cons a l ih =>
    have hcount : (a :: l).count x = l.count x + if a == x then 1 else 0 :=
      List.count_cons x a l
    cases i with
    | zero =>
      cases j with
      | zero => rfl
      | succ j =>
        exfalso
        simp at hi hj
        have hmem : x ∈ l := List.getElem?_mem hj
        have hpos : 0 < l.count x := List.count_pos_iff.mpr hmem
        rw [hcount] at h
        simp [hi] at h
        omega
    | succ i =>
      cases j with
      | zero =>
        exfalso
        simp at hi hj
        have hmem : x ∈ l := List.getElem?_mem hi
        have hpos : 0 < l.count x := List.count_pos_iff.mpr hmem
        rw [hcount] at h
        simp [hj] at h
        omega
      | succ j =>
        simp at hi hj
        have hle : l.count x ≤ 1 := by
          rw [hcount] at h
          omega
        rw [ih hle hi hj]

theorem map_ids_set (l : List Inv) (k : Nat) (inv inv' : Inv)
    (hk : l[k]? = some inv) (hid : inv'.rootActionId = inv.rootActionId) :
    (l.set k inv').map (fun i => i.rootActionId) =
      l.map (fun i => i.rootActionId) := by
  induction l generalizing k with
  | nil => simp at hk
  | cons a l ih =>
    cases k with
    | zero =>
      simp at hk
      subst hk
      simp [hid]
    | succ k =>
      simp at hk
      simp [ih k hk]

/-! ## C5: the takeLatest dispatch step -/

/-- C5: at the moment a `takeLatest`-wrapped invocation is dispatched, and
before the underlying action runs, the pending stack is fully drained with
`cancelAction` issued for every recorded identifier, the new root
identifier is recorded as the sole pending entry, and only then is the new
invocation's body added (still entirely pending). -/
theorem C5_drain_and_record :
    ∀ (s : Sys) (actionId : Nat) (body : List Call) (retVal : Nat),
      ((stepSys s (Ev.dispatchTL actionId body retVal)).previousCalls =
        [actionId]) ∧
      (∀ x ∈ s.previousCalls,
        (stepSys s (Ev.dispatchTL actionId body retVal)).registry.isActionCancelled
          x = true) ∧
      ((stepSys s (Ev.dispatchTL actionId body retVal)).invs =
        s.invs ++ [{ rootActionId := actionId, tl := true, pending := body,
                     retVal := retVal, result := none }]) := by
  intro s actionId body retVal
  refine ⟨rfl, ?_, rfl⟩
  intro x hx
  exact drainCancel_mem s.registry s.previousCalls x hx

/-- C5 witness: dispatching identifier 8 while 7 is recorded leaves 8 as
the sole pending entry and 7 cancelled. -/
theorem C5_witness :
    (stepSys { registry := Registry.empty, previousCalls := [7], invs := [],
               hostCalls := [] }
        (Ev.dispatchTL 8 [] 0)).previousCalls = [8] ∧
    (stepSys { registry := Registry.empty, previousCalls := [7], invs := [],
               hostCalls := [] }
        (Ev.dispatchTL 8 [] 0)).registry.isActionCancelled 7 = true :=
  ⟨(C5_drain_and_record
      { registry := Registry.empty, previousCalls := [7], invs := [],
        hostCalls := [] } 8 [] 0).1,
   (C5_drain_and_record
      { registry := Registry.empty, previousCalls := [7], invs := [],
        hostCalls := [] } 8 [] 0).2.1 7 (by decide)⟩

/-! ## Evolution of the invocation identifier list -/

theorem idsOf_step (s : Sys) (e : Ev) :
    idsOf (stepSys s e) = idsOf s ++
      (match e with
       | Ev.dispatchTL i _ _ => [i]
       | Ev.dispatchPlain i _ _ => [i]
       | _ => []) := by
  cases e with
  | cancelEv i => simp [idsOf, stepSys]
  | dispatchTL i body retVal => simp [idsOf, stepSys]
  | dispatchPlain i body retVal => simp [idsOf, stepSys]
  | stepEv k =>
    rcases stepEv_shape s k with h | ⟨inv, o, hk, hr, h⟩ |
      ⟨inv, c, rest, hk, hr, hp, hnt, hcnc, h⟩
    · simp [h]
    · rw [h]
      unfold idsOf
      rw [finishInv_invs]
      rw [map_ids_set s.invs k inv
        ({ inv with
           pending := [],
           result := some (actionWrapperFinish true inv.rootActionId s.registry
             (if inv.tl then takeLatestCatch o else o)).2 }) hk rfl]
      simp
    · rw [h]
      unfold idsOf
      simp only
      rw [map_ids_set s.invs k inv ({ inv with pending := rest }) hk rfl]
      simp

theorem idsOf_foldl (evs : List Ev) (s : Sys) :
    idsOf (evs.foldl stepSys s) = idsOf s ++ dispatchedIds evs := by
  induction evs generalizing s with
  | nil => simp [dispatchedIds]
  | cons e evs ih =>
    rw [List.foldl_cons, ih, idsOf_step, List.append_assoc]
    congr 1
    cases e <;> simp [dispatchedIds]

theorem idsOf_runSys (evs : List Ev) : idsOf (runSys evs) = dispatchedIds evs := by
  unfold runSys
  rw [idsOf_foldl]
  simp [idsOf, initSys]

/-! ## Suppression invariant preservation (claim C3) -/

theorem suppression_step (actionId : Nat) (s : Sys) (e : Ev)
    (hI : SuppressionInv actionId s) (he : isDispatchOf e actionId = false) :
    SuppressionInv actionId (stepSys s e) ∧
    ∀ p ∈ (stepSys s e).hostCalls.drop s.hostCalls.length, p.1 ≠ actionId := by
  obtain ⟨hcount, halive⟩ := hI
  have hcount' : (idsOf (stepSys s e)).count actionId ≤ 1 := by
    rw [idsOf_step]
    cases e with
    | dispatchTL i body retVal =>
      have hi : (i == actionId) = false := he
      simpa [List.count_append, List.count_cons, hi] using hcount
    | dispatchPlain i body retVal =>
      have hi : (i == actionId) = false := he
      simpa [List.count_append, List.count_cons, hi] using hcount
    | cancelEv i => simpa using hcount
    | stepEv k => simpa using hcount
  cases e with
  | cancelEv j =>
    refine ⟨⟨hcount', ?_⟩, ?_⟩
    · intro inv hmem hid hres
      exact isActionCancelled_cancelAction_of _ j actionId (halive inv hmem hid hres)
    · intro p hp
      rw [show (stepSys s (Ev.cancelEv j)).hostCalls = s.hostCalls from rfl,
        List.drop_length] at hp
      simp at hp
  | dispatchTL j body retVal =>
    have hj : (j == actionId) = false := he
    have hj' : j ≠ actionId := by simpa using hj
    refine ⟨⟨hcount', ?_⟩, ?_⟩
    · intro inv hmem hid hres
      rcases List.mem_append.mp (show inv ∈ s.invs ++
          [{ rootActionId := j, tl := true, pending := body,
             retVal := retVal, result := none }] from hmem) with hold | hnew
      · exact drainCancel_of _ _ _ (halive inv hold hid hres)
      · exfalso
        simp at hnew
        rw [hnew] at hid
        exact hj' hid
    · intro p hp
      rw [show (stepSys s (Ev.dispatchTL j body retVal)).hostCalls =
        s.hostCalls from rfl, List.drop_length] at hp
      simp at hp
  | dispatchPlain j body retVal =>
    have hj : (j == actionId) = false := he
    have hj' : j ≠ actionId := by simpa using hj
    refine ⟨⟨hcount', ?_⟩, ?_⟩
    · intro inv hmem hid hres
      rcases List.mem_append.mp (show inv ∈ s.invs ++
          [{ rootActionId := j, tl := false, pending := body,
             retVal := retVal, result := none }] from hmem) with hold | hnew
      · exact halive inv hold hid hres
      · exfalso
        simp at hnew
        rw [hnew] at hid
        exact hj' hid
    · intro p hp
      rw [show (stepSys s (Ev.dispatchPlain j body retVal)).hostCalls =
        s.hostCalls from rfl, List.drop_length] at hp
      simp at hp
  | stepEv k =>
    rcases stepEv_shape s k with h | ⟨inv, o, hk, hr, h⟩ |
      ⟨inv, c, rest, hk, hr, hp, hnt, hcnc, h⟩
    · refine ⟨⟨hcount', ?_⟩, ?_⟩
      · rw [h]
        exact halive
      · rw [h]
        intro p hmp
        rw [List.drop_length] at hmp
        simp at hmp
    · have hklt : k < s.invs.length := by
        rw [List.getElem?_eq_some] at hk
        exact hk.1
      refine ⟨⟨hcount', ?_⟩, ?_⟩
      · intro inv' hmem' hid' hres'
        rw [h] at hmem' ⊢
        rw [finishInv_invs] at hmem'
        obtain ⟨j, hj⟩ := List.mem_iff_getElem?.mp hmem'
        by_cases hjk : j = k
        · exfalso
          subst hjk
          rw [List.getElem?_set_self (by simpa using hklt)] at hj
          have heq := Option.some.inj hj
          rw [← heq] at hres'
          simp at hres'
        · rw [List.getElem?_set_ne (fun hkj => hjk hkj.symm)] at hj
          have hmemold : inv' ∈ s.invs := List.getElem?_mem hj
          have hcanc := halive inv' hmemold hid' hres'
          rcases finishInv_registry_cases s k inv o with hreg | hreg
          · rw [hreg]
            exact hcanc
          · rw [hreg]
            by_cases hiid : inv.rootActionId = actionId
            · exfalso
              apply hjk
              have hjid : (idsOf s)[j]? = some actionId := by
                unfold idsOf
                rw [List.getElem?_map, hj]
                simp [hid']
              have hkid : (idsOf s)[k]? = some actionId := by
                unfold idsOf
                rw [List.getElem?_map, hk]
                simp [hiid]
              exact getElem?_eq_of_count_le_one hcount hjid hkid
            · rw [isActionCancelled_cleanAction_ne _ _ _
                (fun hx => hiid hx.symm)]
              exact hcanc
      · rw [h]
        intro p hmp
        rw [finishInv_hostCalls, List.drop_length] at hmp
        simp at hmp
    · have hklt : k < s.invs.length := by
        rw [List.getElem?_eq_some] at hk
        exact hk.1
      refine ⟨⟨hcount', ?_⟩, ?_⟩
      · intro inv' hmem' hid' hres'
        rw [h] at hmem' ⊢
        simp only at hmem' ⊢
        obtain ⟨j, hj⟩ := List.mem_iff_getElem?.mp hmem'
        by_cases hjk : j = k
        · subst hjk
          rw [List.getElem?_set_self (by simpa using hklt)] at hj
          have heq := Option.some.inj hj
          have hrid : inv.rootActionId = actionId := by
            rw [← hid', ← heq]
          exact halive inv (List.getElem?_mem hk) hrid hr
        · rw [List.getElem?_set_ne (fun hkj => hjk hkj.symm)] at hj
          exact halive inv' (List.getElem?_mem hj) hid' hres'
      · rw [h]
        intro p hmp
        simp only at hmp
        rw [List.drop_left] at hmp
        simp at hmp
        rw [hmp]
        intro heq
        have heq' : inv.rootActionId = actionId := heq
        have htrue := halive inv (List.getElem?_mem hk) heq' hr
        rw [heq'] at hcnc
        rw [htrue] at hcnc
        cases hcnc

theorem suppression_run (actionId : Nat) (post : List Ev) (s : Sys)
    (hI : SuppressionInv actionId s)
    (hpost : ∀ e ∈ post, isDispatchOf e actionId = false) :
    SuppressionInv actionId (post.foldl stepSys s) ∧
    ∀ p ∈ (post.foldl stepSys s).hostCalls.drop s.hostCalls.length,
      p.1 ≠ actionId := by
  induction post generalizing s with
  | nil =>
    refine ⟨hI, ?_⟩
    intro p hp
    rw [List.foldl_nil, List.drop_length] at hp
    simp at hp
  | cons e post ih =>
    obtain ⟨h1, h2⟩ := suppression_step actionId s e hI (hpost e (by simp))
    obtain ⟨h3, h4⟩ := ih (stepSys s e) h1
      (fun e' he' => hpost e' (by simp [he']))
    refine ⟨h3, ?_⟩
    intro p hmp
    obtain ⟨t1, ht1⟩ := hostCalls_prefix_step s e
    obtain ⟨t2, ht2⟩ := hostCalls_prefix_run post (stepSys s e)
    rw [List.foldl_cons] at hmp
    rw [← ht2, ← ht1, List.append_assoc, List.drop_left] at hmp
    rcases List.mem_append.mp hmp with h1mem | h2mem
    · apply h2
      rw [← ht1, List.drop_left]
      exact h1mem
    · apply h4
      rw [← ht2, List.drop_left]
      exact h2mem

/-! ## Claim C3 -/

/-- C3: once `cancelAction(actionId)` has been called for the root
identifier of an invocation tree (at most one invocation carries the
identifier, and it is not re-dispatched afterwards), no later mutation or
dispatch call of that tree is ever forwarded to the host — everything the
host received up to the cancellation stays applied (the old log is a
prefix of every later log, no rollback) and nothing tagged with the
cancelled identifier is appended after it. Moreover an intercepted
mutation/dispatch call attempted while the identifier is in the registry
fails with `ActionCancelledError`, settling the invocation (absorbed into
a valueless resolution under `takeLatest`, a `CancelledError` rejection
otherwise) and forwarding nothing. -/
theorem C3_suppression_after_cancel :
    (∀ (pre post : List Ev) (actionId : Nat),
      (dispatchedIds pre).count actionId ≤ 1 →
      (∀ e ∈ post, isDispatchOf e actionId = false) →
      (runSys (pre ++ [Ev.cancelEv actionId])).hostCalls <+:
        (post.foldl stepSys (runSys (pre ++ [Ev.cancelEv actionId]))).hostCalls ∧
      ∀ p ∈ (post.foldl stepSys
          (runSys (pre ++ [Ev.cancelEv actionId]))).hostCalls.drop
          (runSys (pre ++ [Ev.cancelEv actionId])).hostCalls.length,
        p.1 ≠ actionId) ∧
    (∀ (s : Sys) (k : Nat) (inv : Inv) (c : Call) (rest : List Call),
      s.invs[k]? = some inv → inv.result = none →
      inv.pending = c :: rest → (∀ e, c ≠ Call.throwCall e) →
      s.registry.isActionCancelled inv.rootActionId = true →
      (stepSys s (Ev.stepEv k)).hostCalls = s.hostCalls ∧
      (stepSys s (Ev.stepEv k)).invs[k]? =
        some { inv with
               pending := [],
               result := some (if inv.tl then Except.ok none
                               else Except.error actionCancelledError) }) := by
  constructor
  · intro pre post actionId hcount hpost
    have hIs1 : SuppressionInv actionId (runSys (pre ++ [Ev.cancelEv actionId])) := by
      constructor
      · rw [idsOf_runSys]
        have hdi : dispatchedIds (pre ++ [Ev.cancelEv actionId]) =
            dispatchedIds pre := by
          unfold dispatchedIds
          rw [List.filterMap_append]
          simp
        rw [hdi]
        exact hcount
      · intro inv hmem hid hres
        have hrun : runSys (pre ++ [Ev.cancelEv actionId]) =
            stepSys (runSys pre) (Ev.cancelEv actionId) := by
          unfold runSys
          rw [List.foldl_append]
          rfl
        rw [hrun]
        exact isActionCancelled_cancelAction_self _ _
    obtain ⟨hinv, hsupp⟩ := suppression_run actionId post _ hIs1 hpost
    exact ⟨hostCalls_prefix_run post _, hsupp⟩
  · intro s k inv c rest hk hr hp hnt hc
    have hklt : k < s.invs.length := by
      rw [List.getElem?_eq_some] at hk
      exact hk.1
    have hstep : stepSys s (Ev.stepEv k) =
        finishInv s k inv (Except.error actionCancelledError) := by
      cases c with
      | throwCall e => exact absurd rfl (hnt e)
      | commitCall m => simp [stepSys, hk, hr, hp, hc]
      | dispatchCall m => simp [stepSys, hk, hr, hp, hc]
    refine ⟨by rw [hstep, finishInv_hostCalls], ?_⟩
    rw [hstep, finishInv_invs, List.getElem?_set_self (by simpa using hklt)]
    cases htl : inv.tl <;>
      simp [htl, takeLatestCatch, actionCancelledError, actionWrapperFinish]

/-- C3 witness: invocation 1 forwards one commit, is then cancelled
externally; its remaining commit is never forwarded and the host log keeps
the first commit. -/
theorem C3_witness :
    (runSys ([Ev.dispatchTL 1 [Call.commitCall 10, Call.commitCall 11] 0,
        Ev.stepEv 0] ++ [Ev.cancelEv 1])).hostCalls <+:
      ([Ev.stepEv 0, Ev.stepEv 0].foldl stepSys
        (runSys ([Ev.dispatchTL 1 [Call.commitCall 10, Call.commitCall 11] 0,
          Ev.stepEv 0] ++ [Ev.cancelEv 1]))).hostCalls ∧
    ∀ p ∈ ([Ev.stepEv 0, Ev.stepEv 0].foldl stepSys
        (runSys ([Ev.dispatchTL 1 [Call.commitCall 10, Call.commitCall 11] 0,
          Ev.stepEv 0] ++ [Ev.cancelEv 1]))).hostCalls.drop
        (runSys ([Ev.dispatchTL 1 [Call.commitCall 10, Call.commitCall 11] 0,
          Ev.stepEv 0] ++ [Ev.cancelEv 1])).hostCalls.length,
      p.1 ≠ 1 :=
  C3_suppression_after_cancel.1
    [Ev.dispatchTL 1 [Call.commitCall 10, Call.commitCall 11] 0, Ev.stepEv 0]
    [Ev.stepEv 0, Ev.stepEv 0] 1 (by decide) (by decide)

/-! ## Take-latest supersession machinery (claim C4) -/

theorem pendingCover_step (s : Sys) (e : Ev)
    (hP : PendingCoverInv s) (hnd : (idsOf s).Nodup) :
    PendingCoverInv (stepSys s e) := by
  cases e with
  | cancelEv j =>
    intro inv hmem htl hres
    rcases hP inv hmem htl hres with hstack | hcanc
    · exact Or.inl hstack
    · exact Or.inr (isActionCancelled_cancelAction_of _ j _ hcanc)
  | dispatchTL j body retVal =>
    intro inv hmem htl hres
    rcases List.mem_append.mp (show inv ∈ s.invs ++
        [{ rootActionId := j, tl := true, pending := body,
           retVal := retVal, result := none }] from hmem) with hold | hnew
    · right
      rcases hP inv hold htl hres with hstack | hcanc
      · exact drainCancel_mem _ _ _ hstack
      · exact drainCancel_of _ _ _ hcanc
    · left
      simp at hnew
      rw [hnew]
      simp [stepSys]
  | dispatchPlain j body retVal =>
    intro inv hmem htl hres
    rcases List.mem_append.mp (show inv ∈ s.invs ++
        [{ rootActionId := j, tl := false, pending := body,
           retVal := retVal, result := none }] from hmem) with hold | hnew
    · exact hP inv hold htl hres
    · exfalso
      simp at hnew
      rw [hnew] at htl
      simp at htl
  | stepEv k =>
    rcases stepEv_shape s k with h | ⟨inv, o, hk, hr, h⟩ |
      ⟨inv, c, rest, hk, hr, hp, hnt, hcnc, h⟩
    · rw [h]
      exact hP
    · have hklt : k < s.invs.length := by
        rw [List.getElem?_eq_some] at hk
        exact hk.1
      intro inv' hmem' htl' hres'
      rw [h] at hmem' ⊢
      rw [finishInv_invs] at hmem'
      obtain ⟨j, hj⟩ := List.mem_iff_getElem?.mp hmem'
      by_cases hjk : j = k
      · exfalso
        subst hjk
        rw [List.getElem?_set_self (by simpa using hklt)] at hj
        have heq := Option.some.inj hj
        rw [← heq] at hres'
        simp at hres'
      · rw [List.getElem?_set_ne (fun hkj => hjk hkj.symm)] at hj
        rcases hP inv' (List.getElem?_mem hj) htl' hres' with hstack | hcanc
        · left
          rw [finishInv_previousCalls]
          exact hstack
        · right
          rcases finishInv_registry_cases s k inv o with hreg | hreg
          · rw [hreg]
            exact hcanc
          · rw [hreg]
            have hne : inv'.rootActionId ≠ inv.rootActionId := by
              intro heq
              apply hjk
              have hcc : (idsOf s).count inv.rootActionId ≤ 1 :=
                List.nodup_iff_count_le_one.mp hnd _
              have hjid : (idsOf s)[j]? = some inv.rootActionId := by
                unfold idsOf
                rw [List.getElem?_map, hj]
                simp [heq]
              have hkid : (idsOf s)[k]? = some inv.rootActionId := by
                unfold idsOf
                rw [List.getElem?_map, hk]
                simp
              exact getElem?_eq_of_count_le_one hcc hjid hkid
            rw [isActionCancelled_cleanAction_ne _ _ _ hne]
            exact hcanc
    · have hklt : k < s.invs.length := by
        rw [List.getElem?_eq_some] at hk
        exact hk.1
      intro inv' hmem' htl' hres'
      rw [h] at hmem' ⊢
      simp only at hmem' ⊢
      obtain ⟨j, hj⟩ := List.mem_iff_getElem?.mp hmem'
      by_cases hjk : j = k
      · subst hjk
        rw [List.getElem?_set_self (by simpa using hklt)] at hj
        have heq := Option.some.inj hj
        have htl2 : inv.tl = true := by
          rw [← heq] at htl'
          exact htl'
        have hid2 : inv'.rootActionId = inv.rootActionId := by
          rw [← heq]
        rcases hP inv (List.getElem?_mem hk) htl2 hr with hstack | hcanc
        · left
          rw [hid2]
          exact hstack
        · right
          rw [hid2]
          exact hcanc
      · rw [List.getElem?_set_ne (fun hkj => hjk hkj.symm)] at hj
        exact hP inv' (List.getElem?_mem hj) htl' hres'

theorem pendingCover_run (evs : List Ev) (hnd : (dispatchedIds evs).Nodup) :
    PendingCoverInv (runSys evs) := by
  induction evs using List.reverseRecOn with
  | nil =>
    intro inv hmem htl hres
    simp [runSys, initSys] at hmem
  | append_singleton evs e ih =>
    have hsplit : dispatchedIds (evs ++ [e]) =
        dispatchedIds evs ++ dispatchedIds [e] := by
      unfold dispatchedIds
      rw [List.filterMap_append]
    rw [hsplit] at hnd
    have hnd' := hnd.of_append_left
    have hrun : runSys (evs ++ [e]) = stepSys (runSys evs) e := by
      unfold runSys
      rw [List.foldl_append]
      rfl
    rw [hrun]
    exact pendingCover_step _ e (ih hnd') (by rw [idsOf_runSys]; exact hnd')

theorem latest_establish (s : Sys) (actionId : Nat) (body : List Call)
    (retVal : Nat) (hP : PendingCoverInv s) :
    LatestInv actionId (stepSys s (Ev.dispatchTL actionId body retVal)) := by
  intro inv hmem htl hne hres
  rcases List.mem_append.mp (show inv ∈ s.invs ++
      [{ rootActionId := actionId, tl := true, pending := body,
         retVal := retVal, result := none }] from hmem) with hold | hnew
  · rcases hP inv hold htl hres with hstack | hcanc
    · exact drainCancel_mem _ _ _ hstack
    · exact drainCancel_of _ _ _ hcanc
  · exfalso
    simp at hnew
    rw [hnew] at hne
    simp at hne

theorem latest_step (actionId : Nat) (s : Sys) (e : Ev)
    (hL : LatestInv actionId s) (hnd : (idsOf s).Nodup)
    (hTL : isDispatchTLEv e = false) :
    LatestInv actionId (stepSys s e) ∧
    ∀ p ∈ (stepSys s e).hostCalls.drop s.hostCalls.length,
      p.2.1 = true → p.1 = actionId := by
  cases e with
  | cancelEv j =>
    refine ⟨?_, ?_⟩
    · intro inv hmem htl hne hres
      exact isActionCancelled_cancelAction_of _ j _ (hL inv hmem htl hne hres)
    · intro p hp
      rw [show (stepSys s (Ev.cancelEv j)).hostCalls = s.hostCalls from rfl,
        List.drop_length] at hp
      simp at hp
  | dispatchTL j body retVal =>
    simp [isDispatchTLEv] at hTL
  | dispatchPlain j body retVal =>
    refine ⟨?_, ?_⟩
    · intro inv hmem htl hne hres
      rcases List.mem_append.mp (show inv ∈ s.invs ++
          [{ rootActionId := j, tl := false, pending := body,
             retVal := retVal, result := none }] from hmem) with hold | hnew
      · exact hL inv hold htl hne hres
      · exfalso
        simp at hnew
        rw [hnew] at htl
        simp at htl
    · intro p hp
      rw [show (stepSys s (Ev.dispatchPlain j body retVal)).hostCalls =
        s.hostCalls from rfl, List.drop_length] at hp
      simp at hp
  | stepEv k =>
    rcases stepEv_shape s k with h | ⟨inv, o, hk, hr, h⟩ |
      ⟨inv, c, rest, hk, hr, hp, hnt, hcnc, h⟩
    · refine ⟨?_, ?_⟩
      · rw [h]
        exact hL
      · rw [h]
        intro p hmp
        rw [List.drop_length] at hmp
        simp at hmp
    · have hklt : k < s.invs.length := by
        rw [List.getElem?_eq_some] at hk
        exact hk.1
      refine ⟨?_, ?_⟩
      · intro inv' hmem' htl' hne' hres'
        rw [h] at hmem' ⊢
        rw [finishInv_invs] at hmem'
        obtain ⟨j, hj⟩ := List.mem_iff_getElem?.mp hmem'
        by_cases hjk : j = k
        · exfalso
          subst hjk
          rw [List.getElem?_set_self (by simpa using hklt)] at hj
          have heq := Option.some.inj hj
          rw [← heq] at hres'
          simp at hres'
        · rw [List.getElem?_set_ne (fun hkj => hjk hkj.symm)] at hj
          have hcanc := hL inv' (List.getElem?_mem hj) htl' hne' hres'
          rcases finishInv_registry_cases s k inv o with hreg | hreg
          · rw [hreg]
            exact hcanc
          · rw [hreg]
            have hne2 : inv'.rootActionId ≠ inv.rootActionId := by
              intro heq
              apply hjk
              have hcc : (idsOf s).count inv.rootActionId ≤ 1 :=
                List.nodup_iff_count_le_one.mp hnd _
              have hjid : (idsOf s)[j]? = some inv.rootActionId := by
                unfold idsOf
                rw [List.getElem?_map, hj]
                simp [heq]
              have hkid : (idsOf s)[k]? = some inv.rootActionId := by
                unfold idsOf
                rw [List.getElem?_map, hk]
                simp
              exact getElem?_eq_of_count_le_one hcc hjid hkid
            rw [isActionCancelled_cleanAction_ne _ _ _ hne2]
            exact hcanc
      · rw [h]
        intro p hmp
        rw [finishInv_hostCalls, List.drop_length] at hmp
        simp at hmp
    · have hklt : k < s.invs.length := by
        rw [List.getElem?_eq_some] at hk
        exact hk.1
      refine ⟨?_, ?_⟩
      · intro inv' hmem' htl' hne' hres'
        rw [h] at hmem' ⊢
        simp only at hmem' ⊢
        obtain ⟨j, hj⟩ := List.mem_iff_getElem?.mp hmem'
        by_cases hjk : j = k
        · subst hjk
          rw [List.getElem?_set_self (by simpa using hklt)] at hj
          have heq := Option.some.inj hj
          have htl2 : inv.tl = true := by
            rw [← heq] at htl'
            exact htl'
          have hne2 : inv.rootActionId ≠ actionId := by
            rw [← heq] at hne'
            exact hne'
          have hid2 : inv'.rootActionId = inv.rootActionId := by
            rw [← heq]
          rw [hid2]
          exact hL inv (List.getElem?_mem hk) htl2 hne2 hr
        · rw [List.getElem?_set_ne (fun hkj => hjk hkj.symm)] at hj
          exact hL inv' (List.getElem?_mem hj) htl' hne' hres'
      · rw [h]
        intro p hmp
        simp only at hmp
        rw [List.drop_left] at hmp
        simp at hmp
        rw [hmp]
        intro htlp
        have htl2 : inv.tl = true := htlp
        by_contra hne2
        have hne3 : inv.rootActionId ≠ actionId := hne2
        have htrue := hL inv (List.getElem?_mem hk) htl2 hne3 hr
        rw [htrue] at hcnc
        cases hcnc

theorem latest_run (actionId : Nat) (post : List Ev) (s : Sys)
    (hL : LatestInv actionId s) (hnd : (idsOf s).Nodup)
    (hTL : ∀ e ∈ post, isDispatchTLEv e = false)
    (hfresh : ∀ x ∈ dispatchedIds post, x ∉ idsOf s)
    (hpostnd : (dispatchedIds post).Nodup) :
    LatestInv actionId (post.foldl stepSys s) ∧
    ∀ p ∈ (post.foldl stepSys s).hostCalls.drop s.hostCalls.length,
      p.2.1 = true → p.1 = actionId := by
  induction post generalizing s with
  | nil =>
    refine ⟨hL, ?_⟩
    intro p hp
    rw [List.foldl_nil, List.drop_length] at hp
    simp at hp
  | cons e post ih =>
    have he := hTL e (by simp)
    obtain ⟨h1, h2⟩ := latest_step actionId s e hL hnd he
    have hde : dispatchedIds (e :: post) =
        (match e with
         | Ev.dispatchTL i _ _ => [i]
         | Ev.dispatchPlain i _ _ => [i]
         | _ => []) ++ dispatchedIds post := by
      cases e <;> simp [dispatchedIds]
    have hnd' : (idsOf (stepSys s e)).Nodup := by
      rw [idsOf_step]
      cases e with
      | cancelEv j => simpa using hnd
      | stepEv k => simpa using hnd
      | dispatchTL j b r => simp [isDispatchTLEv] at he
      | dispatchPlain j b r =>
        have hj : j ∉ idsOf s := hfresh j (by rw [hde]; simp)
        exact hnd.append (List.nodup_singleton j)
          (List.disjoint_singleton.mpr hj)
    have hfresh' : ∀ x ∈ dispatchedIds post, x ∉ idsOf (stepSys s e) := by
      intro x hx
      rw [idsOf_step]
      intro hmem
      rcases List.mem_append.mp hmem with hmem1 | hmem2
      · exact hfresh x (by rw [hde]; exact List.mem_append_right _ hx) hmem1
      · cases e with
        | cancelEv j => simp at hmem2
        | stepEv k => simp at hmem2
        | dispatchTL j b r => simp [isDispatchTLEv] at he
        | dispatchPlain j b r =>
          simp at hmem2
          rw [hde] at hpostnd
          simp at hpostnd
          rw [hmem2] at hx
          exact hpostnd.1 hx
    have hpostnd' : (dispatchedIds post).Nodup := by
      rw [hde] at hpostnd
      exact hpostnd.of_append_right
    obtain ⟨h3, h4⟩ := ih (stepSys s e) h1 hnd'
      (fun e' he' => hTL e' (by simp [he'])) hfresh' hpostnd'
    refine ⟨h3, ?_⟩
    intro p hmp htlp
    obtain ⟨t1, ht1⟩ := hostCalls_prefix_step s e
    obtain ⟨t2, ht2⟩ := hostCalls_prefix_run post (stepSys s e)
    rw [List.foldl_cons] at hmp
    rw [← ht2, ← ht1, List.append_assoc, List.drop_left] at hmp
    rcases List.mem_append.mp hmp with h1mem | h2mem
    · exact h2 p (by rw [← ht1, List.drop_left]; exact h1mem) htlp
    · exact h4 p (by rw [← ht2, List.drop_left]; exact h2mem) htlp

/-! ## Claim C4 -/

/-- C4 counterexample. The claim states that for invocations I1, ..., In of
one `takeLatest`-wrapped action dispatched in that order, only In's
mutations ever reach the host store, regardless of completion order. In
the trace below I1 forwards its commit before I2 is dispatched (a body
that mutates before its first await); that mutation has already reached
the host and is kept (the spec's own P2 forbids rollback), so a mutation
of I1 ≠ In is observed. -/
theorem C4_counterexample :
    ¬ (∀ (evs : List Ev) (lastId : Nat),
        (dispatchedIds evs).Nodup → lastTLId evs = some lastId →
        ∀ p ∈ (runSys evs).hostCalls, p.2.1 = true → p.1 = lastId) := by
  intro h
  have h2 := h [Ev.dispatchTL 1 [Call.commitCall 10] 0, Ev.stepEv 0,
                Ev.dispatchTL 2 [Call.commitCall 20] 0, Ev.stepEv 1] 2
    (by decide) (by decide) (1, true, Call.commitCall 10) (by decide) rfl
  exact absurd h2 (by decide)

/-- C4 amended: from the moment In is dispatched, no mutation of any
earlier `takeLatest`-wrapped invocation is ever forwarded — every host
call forwarded after In's dispatch by a `takeLatest`-wrapped invocation
carries In's identifier (mutations those earlier invocations forwarded
before In's dispatch have already reached the host and stay applied).
Identifiers are assumed pairwise distinct (fresh), and In is the last
`takeLatest` dispatch of the trace. -/
theorem C4_only_latest_after_dispatch :
    ∀ (pre post : List Ev) (actionId : Nat) (body : List Call) (retVal : Nat),
      (dispatchedIds
        (pre ++ Ev.dispatchTL actionId body retVal :: post)).Nodup →
      (∀ e ∈ post, isDispatchTLEv e = false) →
      ∀ p ∈ (post.foldl stepSys
          (runSys (pre ++ [Ev.dispatchTL actionId body retVal]))).hostCalls.drop
          (runSys (pre ++ [Ev.dispatchTL actionId body retVal])).hostCalls.length,
        p.2.1 = true → p.1 = actionId := by
  intro pre post actionId body retVal hnd hTL
  have hsplit : dispatchedIds
      (pre ++ Ev.dispatchTL actionId body retVal :: post) =
      dispatchedIds pre ++ actionId :: dispatchedIds post := by
    unfold dispatchedIds
    rw [List.filterMap_append]
    simp
  rw [hsplit] at hnd
  have hndpre : (dispatchedIds pre).Nodup := hnd.of_append_left
  have hP := pendingCover_run pre hndpre
  have hrun : runSys (pre ++ [Ev.dispatchTL actionId body retVal]) =
      stepSys (runSys pre) (Ev.dispatchTL actionId body retVal) := by
    unfold runSys
    rw [List.foldl_append]
    rfl
  have hL1 : LatestInv actionId
      (runSys (pre ++ [Ev.dispatchTL actionId body retVal])) := by
    rw [hrun]
    exact latest_establish _ _ _ _ hP
  have hids1 : idsOf (runSys (pre ++ [Ev.dispatchTL actionId body retVal])) =
      dispatchedIds pre ++ [actionId] := by
    rw [idsOf_runSys]
    unfold dispatchedIds
    rw [List.filterMap_append]
    simp
  have hnd2 : ((dispatchedIds pre ++ [actionId]) ++
      dispatchedIds post).Nodup := by
    rw [List.append_assoc]
    simpa using hnd
  have hnd1 : (idsOf (runSys
      (pre ++ [Ev.dispatchTL actionId body retVal]))).Nodup := by
    rw [hids1]
    exact hnd2.of_append_left
  have hdisj : (dispatchedIds pre ++ [actionId]).Disjoint
      (dispatchedIds post) := (List.nodup_append.mp hnd2).2.2
  have hfresh : ∀ x ∈ dispatchedIds post,
      x ∉ idsOf (runSys (pre ++ [Ev.dispatchTL actionId body retVal])) := by
    intro x hx
    rw [hids1]
    exact List.disjoint_right.mp hdisj hx
  have hpostnd : (dispatchedIds post).Nodup := (List.nodup_append.mp hnd2).2.1
  exact (latest_run actionId post _ hL1 hnd1 hTL hfresh hpostnd).2

/-- C4 witness: I1 is dispatched, then superseded by I2 before I1's body
resumes; the only call forwarded after I2's dispatch is I2's commit, whose
tag the amended theorem pins to I2's identifier. -/
theorem C4_witness :
    (2, true, Call.commitCall 20).1 = 2 ∧
    ([Ev.stepEv 0, Ev.stepEv 1].foldl stepSys
      (runSys ([Ev.dispatchTL 1 [Call.commitCall 10] 0] ++
        [Ev.dispatchTL 2 [Call.commitCall 20] 0]))).hostCalls =
      [(2, true, Call.commitCall 20)] :=
  ⟨C4_only_latest_after_dispatch [Ev.dispatchTL 1 [Call.commitCall 10] 0]
      [Ev.stepEv 0, Ev.stepEv 1] 2 [Call.commitCall 20] 0
      (by decide) (by decide) (2, true, Call.commitCall 20) (by decide) rfl,
    by decide⟩

/-! ## Claim C10 -/

theorem takeLatestCatch_ne_cancel_error (o : Except JsError (Option Nat))
    (e : JsError) (he : e.name = "ActionCancelledError") :
    takeLatestCatch o ≠ Except.error e := by
  unfold takeLatestCatch
  cases o with
  | ok v => simp
  | error e' =>
    by_cases h : e'.name = "ActionCancelledError"
    · simp [h]
    · simp [h]
      intro heq
      rw [heq] at h
      exact h he

theorem actionWrapperFinish_error_inv (isRoot : Bool) (rootActionId : Nat)
    (r : Registry) (o : Except JsError (Option Nat)) (e : JsError)
    (h : (actionWrapperFinish isRoot rootActionId r o).2 = Except.error e) :
    o = Except.error e := by
  cases o with
  | ok v => simp [actionWrapperFinish] at h
  | error e' =>
    simp [actionWrapperFinish] at h
    rw [h]

theorem tlNoCancel_step (s : Sys) (e : Ev)
    (hAll : ∀ inv ∈ s.invs, TlNoCancelError inv) :
    ∀ inv ∈ (stepSys s e).invs, TlNoCancelError inv := by
  cases e with
  | cancelEv j => exact hAll
  | dispatchTL j body retVal =>
    intro inv hmem
    rcases List.mem_append.mp (show inv ∈ s.invs ++
        [{ rootActionId := j, tl := true, pending := body,
           retVal := retVal, result := none }] from hmem) with hold | hnew
    · exact hAll inv hold
    · simp at hnew
      rw [hnew]
      intro htl e' he' hres
      simp at hres
  | dispatchPlain j body retVal =>
    intro inv hmem
    rcases List.mem_append.mp (show inv ∈ s.invs ++
        [{ rootActionId := j, tl := false, pending := body,
           retVal := retVal, result := none }] from hmem) with hold | hnew
    · exact hAll inv hold
    · simp at hnew
      rw [hnew]
      intro htl e' he' hres
      simp at hres
  | stepEv k =>
    rcases stepEv_shape s k with h | ⟨inv, o, hk, hr, h⟩ |
      ⟨inv, c, rest, hk, hr, hp, hnt, hcnc, h⟩
    · rw [h]
      exact hAll
    · intro inv' hmem'
      rw [h, finishInv_invs] at hmem'
      rcases List.mem_or_eq_of_mem_set hmem' with hold | hnew
      · exact hAll inv' hold
      · rw [hnew]
        intro htl e' he' hres
        have htl2 : inv.tl = true := htl
        simp at hres
        have hafter := actionWrapperFinish_error_inv true inv.rootActionId
          s.registry _ e' hres
        rw [if_pos htl2] at hafter
        exact takeLatestCatch_ne_cancel_error o e' he' hafter
    · intro inv' hmem'
      rw [h] at hmem'
      simp only at hmem'
      rcases List.mem_or_eq_of_mem_set hmem' with hold | hnew
      · exact hAll inv' hold
      · rw [hnew]
        intro htl e' he' hres
        exact hAll inv (List.getElem?_mem hk) htl e' he' hres

theorem tlNoCancel_run (evs : List Ev) :
    ∀ inv ∈ (runSys evs).invs, TlNoCancelError inv := by
  induction evs using List.reverseRecOn with
  | nil =>
    intro inv hmem
    simp [runSys, initSys] at hmem
  | append_singleton evs e ih =>
    rw [show runSys (evs ++ [e]) = stepSys (runSys evs) e from by
      unfold runSys; rw [List.foldl_append]; rfl]
    exact tlNoCancel_step _ e ih

/-- C10: for a `takeLatest`-wrapped (and `makeCancellable`-processed)
action, a `CancelledError` arising from any cancellation of the current
invocation's own root identifier — in particular an external
`cancelAction` call, not only supersession — is absorbed: in no reachable
state does such an invocation's dispatch promise reject with an error
named "ActionCancelledError", and an invocation whose identifier is in
the registry settles, at its next intercepted call, into a resolution
with no value and no error. -/
theorem C10_cancel_absorbed :
    (∀ (evs : List Ev), ∀ inv ∈ (runSys evs).invs, inv.tl = true →
      ∀ e : JsError, e.name = "ActionCancelledError" →
        inv.result ≠ some (Except.error e)) ∧
    (∀ (s : Sys) (k : Nat) (inv : Inv) (c : Call) (rest : List Call),
      s.invs[k]? = some inv → inv.tl = true → inv.result = none →
      inv.pending = c :: rest → (∀ e, c ≠ Call.throwCall e) →
      s.registry.isActionCancelled inv.rootActionId = true →
      (stepSys s (Ev.stepEv k)).invs[k]? =
        some { inv with
               pending := [],
               result := some (Except.ok none) }) := by
  constructor
  · intro evs inv hmem htl e he
    exact tlNoCancel_run evs inv hmem htl e he
  · intro s k inv c rest hk htl hr hp hnt hc
    have hklt : k < s.invs.length := by
      rw [List.getElem?_eq_some] at hk
      exact hk.1
    have hstep : stepSys s (Ev.stepEv k) =
        finishInv s k inv (Except.error actionCancelledError) := by
      cases c with
      | throwCall e => exact absurd rfl (hnt e)
      | commitCall m => simp [stepSys, hk, hr, hp, hc]
      | dispatchCall m => simp [stepSys, hk, hr, hp, hc]
    rw [hstep, finishInv_invs, List.getElem?_set_self (by simpa using hklt)]
    simp [htl, takeLatestCatch, actionCancelledError, actionWrapperFinish]

/-- C10 witness: a `takeLatest`-wrapped invocation whose identifier 5 has
been cancelled externally settles into a valueless successful resolution
at its next commit attempt. -/
theorem C10_witness :
    (stepSys { registry := Registry.cancelAction Registry.empty 5,
               previousCalls := [5],
               invs := [{ rootActionId := 5, tl := true,
                          pending := [Call.commitCall 3], retVal := 0,
                          result := none }],
               hostCalls := [] } (Ev.stepEv 0)).invs[0]? =
      some { rootActionId := 5, tl := true, pending := [], retVal := 0,
             result := some (Except.ok none) } :=
  C10_cancel_absorbed.2
    { registry := Registry.cancelAction Registry.empty 5,
      previousCalls := [5],
      invs := [{ rootActionId := 5, tl := true,
                 pending := [Call.commitCall 3], retVal := 0,
                 result := none }],
      hostCalls := [] } 0
    { rootActionId := 5, tl := true, pending := [Call.commitCall 3],
      retVal := 0, result := none } (Call.commitCall 3) [] rfl rfl rfl rfl
    (fun e => by simp) (by decide)

end VuexCancellableActions
